import Mathlib

/-!
Shallow embedding of the LocalSquares rotation engine
(`backend/app/services/rotation_service.py`) and proofs about it.

Modelling conventions:
* Python floats are modelled as rationals (`ℚ`).
* Python `datetime` values are modelled by `PyDatetime`: a point on a global
  timeline plus a flag saying whether the value is timezone-aware; subtracting
  a naive from an aware datetime raises `TypeError`, mirrored by `pySub`.
* `datetime.fromisoformat` is external library code; it is a parameter
  `fiso : String → Option PyDatetime` (`none` models a `ValueError`).
* Randomness is passed in explicitly: `uniform k t` is the value of the k-th
  call to `random.uniform(0, t)`, `shuf` models `random.shuffle`, and `choice`
  models `random.choice(FEATURED_POSITIONS)`.  `UniformValid`/`RandSrc.Valid`
  state the contracts the Python random module guarantees.
* Fallible calls return `Except String`; a `none` result of the shuffle marks
  the (unreachable under the contracts) case where the scan loop runs out of
  fuel.
-/

namespace RotationService

/-- Model of a Python `datetime` value: a position on a global timeline in
seconds, plus whether the value carries a UTC offset (timezone-aware). -/
structure PyDatetime where
  seconds : ℚ
  tzAware : Bool
deriving Repr, DecidableEq

/-- Python `datetime` subtraction: mixing a naive and an aware datetime raises
`TypeError`; otherwise the difference (in seconds) is returned. -/
def pySub (a b : PyDatetime) : Except String ℚ :=
  if a.tzAware = b.tzAware then .ok (a.seconds - b.seconds) else .error "TypeError"

/-- Row of the linked `subscriptions` relation as read by the service
(`select("*, subscriptions(status)")`): just the `status` field, which may be
absent (`subscription.get("status")`). -/
structure Subscription where
  status : Option String
deriving Repr, DecidableEq

/-- Snapshot of a pin row as consumed by the rotation engine. -/
structure Pin where
  id : String
  impressions24h : ℕ
  created_at : Option String
  content_updated_at : Option String
  subscriptions : Option Subscription
deriving Repr, DecidableEq

/-- `NEW_CARD_BOOST_MAX = 2.0`. -/
def NEW_CARD_BOOST_MAX : ℚ := 2

/-- `NEW_CARD_DECAY_HOURS = 72`. -/
def NEW_CARD_DECAY_HOURS : ℚ := 72

/-- `UPDATE_BOOST = 1.3`. -/
def UPDATE_BOOST : ℚ := 13 / 10

/-- `UPDATE_BOOST_DAYS = 7`. -/
def UPDATE_BOOST_DAYS : ℤ := 7

/-- `SEEN_PENALTY = 0.5`. -/
def SEEN_PENALTY : ℚ := 1 / 2

/-- `FEATURED_POSITIONS = [0, 1, 2, 3]` (0-indexed). -/
def FEATURED_POSITIONS : List ℕ := [0, 1, 2, 3]

/-- The `Z`-suffix normalisation done by `_parse_datetime` before calling
`datetime.fromisoformat`. -/
def zNormalize (s : String) : String :=
  if s.endsWith "Z" then s.dropRight 1 ++ "+00:00" else s

/-- `RotationService._parse_datetime`: `None`/empty strings give `None`, a
`ValueError` from `fromisoformat` (modelled by `fiso` returning `none`) gives
`None`. -/
def parse_datetime (fiso : String → Option PyDatetime) :
    Option String → Option PyDatetime
  | none => none
  | some s => if s = "" then none else fiso (zNormalize s)

/-- The new-card boost factor applied by `_calculate_weight` as a function of
hours since creation: linear decay from `NEW_CARD_BOOST_MAX` to 1 over
`NEW_CARD_DECAY_HOURS`, then no boost (factor 1). -/
def new_card_boost (hours_since_creation : ℚ) : ℚ :=
  if hours_since_creation < NEW_CARD_DECAY_HOURS then
    NEW_CARD_BOOST_MAX -
      hours_since_creation / NEW_CARD_DECAY_HOURS * (NEW_CARD_BOOST_MAX - 1)
  else 1

/-- `RotationService._calculate_weight`.  An `Except.error` models an uncaught
Python exception (the `TypeError` from subtracting a naive datetime from the
aware `now`). -/
def calculate_weight (fiso : String → Option PyDatetime) (pin : Pin)
    (now : PyDatetime) (was_seen : Bool) : Except String ℚ :=
  let base0 : ℚ := 1 / ((pin.impressions24h : ℚ) + 1)
  let step1 : Except String ℚ :=
    match parse_datetime fiso pin.created_at with
    | none => .ok base0
    | some created_at =>
      match pySub now created_at with
      | .error e => .error e
      | .ok secs => .ok (base0 * new_card_boost (secs / 3600))
  match step1 with
  | .error e => .error e
  | .ok base1 =>
    match parse_datetime fiso pin.content_updated_at with
    | none => .ok (if was_seen then base1 * SEEN_PENALTY else base1)
    | some updated_at =>
      match pySub now updated_at with
      | .error e => .error e
      | .ok secs =>
        let base2 :=
          if Rat.floor (secs / 86400) < UPDATE_BOOST_DAYS then
            base1 * UPDATE_BOOST
          else base1
        .ok (if was_seen then base2 * SEEN_PENALTY else base2)

/-- The subscription-eligibility check of `get_rotated_pins`:
`if subscription and subscription.get("status") not in ["active", "past_due"]:
continue`.  A pin is kept when it has no linked subscription, or when the
linked status is `"active"` or `"past_due"`. -/
def eligible (pin : Pin) : Bool :=
  match pin.subscriptions with
  | none => true
  | some sub =>
    match sub.status with
    | none => false
    | some st => st == "active" || st == "past_due"

/-- Whether a stored timestamp cannot make `calculate_weight` raise: it is
missing/unparsable, or it parses with the same awareness as `now`. -/
def safeTimestamp (fiso : String → Option PyDatetime) (now : PyDatetime)
    (ts : Option String) : Bool :=
  match parse_datetime fiso ts with
  | none => true
  | some dt => dt.tzAware == now.tzAware

/-- A pin whose two stored timestamps are both safe for `now`. -/
def safePin (fiso : String → Option PyDatetime) (now : PyDatetime)
    (pin : Pin) : Bool :=
  safeTimestamp fiso now pin.created_at &&
    safeTimestamp fiso now pin.content_updated_at

/-- Sum of the weights of the remaining items
(`total_weight = sum(w for _, w in items)`). -/
def totalWeight {α : Type} (items : List (α × ℚ)) : ℚ :=
  (items.map Prod.snd).sum

/-- The cumulative-weight scan of `_weighted_shuffle`: starting from an
accumulated weight `cum`, find the first item whose cumulative weight reaches
`pick`; return that item together with the list with it removed
(`items.pop(i)`).  `none` models a scan that falls through the `for` loop. -/
def selectScan {α : Type} (pick : ℚ) : ℚ → List (α × ℚ) →
    Option (α × List (α × ℚ))
  | _, [] => none
  | cum, (a, w) :: rest =>
    if pick ≤ cum + w then some (a, rest)
    else
      match selectScan pick (cum + w) rest with
      | some (b, rest2) => some (b, (a, w) :: rest2)
      | none => none

/-- The `while items:` loop of `_weighted_shuffle`, with explicit fuel (the
loop removes one item per successful iteration, so `items.length` fuel
suffices under the randomness contract).  `k` counts the calls to
`random.uniform`.  `none` models non-termination of the Python loop, which
cannot occur when every `uniform` draw lies in `[0, total]`. -/
def weightedShuffleAux {α : Type} (uniform : ℕ → ℚ → ℚ)
    (shuf : List α → List α) :
    ℕ → ℕ → List (α × ℚ) → List α → Option (List α)
  | _, _, [], result => some result
  | 0, _, _ :: _, _ => none
  | fuel + 1, k, item :: items, result =>
    let total := totalWeight (item :: items)
    if total ≤ 0 then
      some (result ++ shuf ((item :: items).map Prod.fst))
    else
      match selectScan (uniform k total) 0 (item :: items) with
      | some (a, rest) =>
        weightedShuffleAux uniform shuf fuel (k + 1) rest (result ++ [a])
      | none =>
        weightedShuffleAux uniform shuf fuel (k + 1) (item :: items) result

/-- `RotationService._weighted_shuffle`. -/
def weighted_shuffle {α : Type} (uniform : ℕ → ℚ → ℚ)
    (shuf : List α → List α) (weighted_items : List (α × ℚ)) :
    Option (List α) :=
  if weighted_items.isEmpty then some []
  else
    weightedShuffleAux uniform shuf weighted_items.length 0 weighted_items []

/-- Contract of `random.uniform(0, t)`: the draw lies in `[0, t]` (the upper
end may be included due to rounding, per the Python documentation). -/
def UniformValid (uniform : ℕ → ℚ → ℚ) : Prop :=
  ∀ k t, 0 < t → 0 ≤ uniform k t ∧ uniform k t ≤ t

/-- The random source used by one `get_rotated_pins` call: the stream of
`random.uniform` draws, the `random.shuffle` permutation used by the
degenerate fallback, and the `random.choice(FEATURED_POSITIONS)` draw. -/
structure RandSrc where
  uniform : ℕ → ℚ → ℚ
  shuf : List Pin → List Pin
  choice : ℕ

/-- Contract of the Python random module for a `RandSrc`. -/
def RandSrc.Valid (r : RandSrc) : Prop :=
  UniformValid r.uniform ∧ (∀ l, (r.shuf l).Perm l) ∧
    r.choice ∈ FEATURED_POSITIONS

/-- Python list slicing `l[:n]` for an arbitrary (possibly negative) `n`. -/
def pySlice {α : Type} (l : List α) (n : ℤ) : List α :=
  if 0 ≤ n then l.take n.toNat else l.take (l.length - (-n).toNat)

/-- The candidate-gathering loop of `get_rotated_pins` (step 4 in the source):
skip ineligible pins, divert the pin matching today's featured booking, weigh
everything else.  The accumulator keeps the append order of the Python list;
a later featured match overwrites an earlier one, as in the source. -/
def gatherAux (fiso : String → Option PyDatetime) (now : PyDatetime)
    (featured_pin_id : Option String) (seen_pin_ids : String → Bool) :
    List Pin → List (Pin × ℚ) → Option Pin →
    Except String (List (Pin × ℚ) × Option Pin)
  | [], weighted, featured => .ok (weighted, featured)
  | pin :: rest, weighted, featured =>
    if eligible pin then
      if featured_pin_id == some pin.id then
        gatherAux fiso now featured_pin_id seen_pin_ids rest weighted (some pin)
      else
        match calculate_weight fiso pin now (seen_pin_ids pin.id) with
        | .error e => .error e
        | .ok w =>
          gatherAux fiso now featured_pin_id seen_pin_ids rest
            (weighted ++ [(pin, w)]) featured
    else
      gatherAux fiso now featured_pin_id seen_pin_ids rest weighted featured

/-- `RotationService.get_rotated_pins`, starting from the snapshots the
external reads produce: the board's active pins, today's paid featured
booking's pin id (if any), and the session's seen-set.  The outer `Option`
marks shuffle-loop non-termination (unreachable under `RandSrc.Valid`); the
inner `Except` models an uncaught Python exception. -/
def get_rotated_pins (fiso : String → Option PyDatetime) (rand : RandSrc)
    (pins : List Pin) (featured_pin_id : Option String)
    (seen_pin_ids : String → Bool) (now : PyDatetime) (limit : ℤ) :
    Option (Except String (List Pin)) :=
  if pins.isEmpty then some (.ok [])
  else
    match gatherAux fiso now featured_pin_id seen_pin_ids pins [] none with
    | .error e => some (.error e)
    | .ok (weighted_pins, featured_pin) =>
      match weighted_shuffle rand.uniform rand.shuf weighted_pins with
      | none => none
      | some shuffled =>
        let final :=
          match featured_pin with
          | none => shuffled
          | some fp =>
            shuffled.insertIdx (min rand.choice shuffled.length) fp
        some (.ok (pySlice final limit))

/-- The per-pin update loop of `reset_daily_impressions`; `resetPin` models
the `update(...).eq("id", pin["id"]).execute()` call, whose failure raises. -/
def resetLoop (resetPin : String → Except String Unit) :
    List String → Except String Unit
  | [] => .ok ()
  | i :: rest =>
    match resetPin i with
    | .error e => .error e
    | .ok _ => resetLoop resetPin rest

/-- `RotationService.reset_daily_impressions`, starting from the enumerated
overdue pin ids (the external `lt("last_impression_reset", cutoff)` read). -/
def reset_daily_impressions (overdue : List String)
    (resetPin : String → Except String Unit) : Except String ℕ :=
  if overdue.isEmpty then .ok 0
  else
    match resetLoop resetPin overdue with
    | .error e => .error e
    | .ok _ => .ok overdue.length

/-! ## Theorems -/

theorem pySub_ok (a b : PyDatetime) (h : a.tzAware = b.tzAware) :
    pySub a b = .ok (a.seconds - b.seconds) := by
  simp [pySub, h]

theorem pySub_err (a b : PyDatetime) (h : a.tzAware ≠ b.tzAware) :
    pySub a b = .error "TypeError" := by
  simp [pySub, h]

theorem calculate_weight_ok_of_safe (fiso : String → Option PyDatetime)
    (pin : Pin) (now : PyDatetime) (was_seen : Bool)
    (h : safePin fiso now pin = true) :
    ∃ w, calculate_weight fiso pin now was_seen = .ok w := by
  unfold safePin safeTimestamp at h
  rw [Bool.and_eq_true] at h
  obtain ⟨h1, h2⟩ := h
  unfold calculate_weight
  cases hc : parse_datetime fiso pin.created_at with
  | none =>
    simp only [hc]
    cases hu : parse_datetime fiso pin.content_updated_at with
    | none => simp [hu]
    | some du =>
      rw [hu] at h2
      simp only [beq_iff_eq] at h2
      simp only [hu, pySub_ok now du h2.symm]
      split <;> exact ⟨_, rfl⟩
  | some dc =>
    rw [hc] at h1
    simp only [beq_iff_eq] at h1
    simp only [hc, pySub_ok now dc h1.symm]
    cases hu : parse_datetime fiso pin.content_updated_at with
    | none => simp [hu]
    | some du =>
      rw [hu] at h2
      simp only [beq_iff_eq] at h2
      simp only [hu, pySub_ok now du h2.symm]
      split <;> exact ⟨_, rfl⟩

/-- C4: the new-card boost factor equals `2.0 − (h/72)·(2.0−1.0)` for
`h < 72` hours since creation and exactly `1.0` for `h ≥ 72`; in particular a
pin created right now gets factor 2, one created 36 hours ago gets 1.5, and
one created 72 (or more) hours ago gets exactly 1. -/
theorem new_card_boost_spec :
    (∀ h : ℚ, h < 72 → new_card_boost h = 2 - h / 72 * (2 - 1)) ∧
    (∀ h : ℚ, 72 ≤ h → new_card_boost h = 1) ∧
    new_card_boost 0 = 2 ∧ new_card_boost 36 = 3 / 2 ∧ new_card_boost 72 = 1 := by
  refine ⟨?_, ?_, ?_, ?_, ?_⟩
  · intro h hh
    simp [new_card_boost, NEW_CARD_DECAY_HOURS, NEW_CARD_BOOST_MAX, hh]
  · intro h hh
    simp [new_card_boost, NEW_CARD_DECAY_HOURS, NEW_CARD_BOOST_MAX, not_lt.2 hh]
  · norm_num [new_card_boost, NEW_CARD_DECAY_HOURS, NEW_CARD_BOOST_MAX]
  · norm_num [new_card_boost, NEW_CARD_DECAY_HOURS, NEW_CARD_BOOST_MAX]
  · norm_num [new_card_boost, NEW_CARD_DECAY_HOURS, NEW_CARD_BOOST_MAX]

theorem new_card_boost_spec_witness :
    new_card_boost 36 = 2 - 36 / 72 * (2 - 1) ∧ new_card_boost 100 = 1 :=
  ⟨new_card_boost_spec.1 36 (by norm_num), new_card_boost_spec.2.1 100 (by norm_num)⟩

/-- C7: a missing or unparsable timestamp never raises an exception and
suppresses exactly the corresponding boost: with both timestamps
missing/unparsable the computation returns the base weight with only the seen
penalty; with `created_at` missing/unparsable and `content_updated_at` parsed
(aware), the new-card boost is absent and only the update boost can apply;
with `content_updated_at` missing/unparsable and `created_at` parsed (aware),
the update boost is absent and only the new-card boost applies — in every
case the computation returns normally. -/
theorem calculate_weight_failsoft (fiso : String → Option PyDatetime)
    (pin : Pin) (now : PyDatetime) (was_seen : Bool) :
    (parse_datetime fiso pin.created_at = none →
      parse_datetime fiso pin.content_updated_at = none →
      calculate_weight fiso pin now was_seen =
        .ok (if was_seen then
               1 / ((pin.impressions24h : ℚ) + 1) * SEEN_PENALTY
             else 1 / ((pin.impressions24h : ℚ) + 1))) ∧
    (∀ du, parse_datetime fiso pin.created_at = none →
      parse_datetime fiso pin.content_updated_at = some du →
      du.tzAware = now.tzAware →
      calculate_weight fiso pin now was_seen =
        .ok (if was_seen then
               (if Rat.floor ((now.seconds - du.seconds) / 86400) <
                   UPDATE_BOOST_DAYS then
                 1 / ((pin.impressions24h : ℚ) + 1) * UPDATE_BOOST
                else 1 / ((pin.impressions24h : ℚ) + 1)) * SEEN_PENALTY
             else
               if Rat.floor ((now.seconds - du.seconds) / 86400) <
                   UPDATE_BOOST_DAYS then
                 1 / ((pin.impressions24h : ℚ) + 1) * UPDATE_BOOST
               else 1 / ((pin.impressions24h : ℚ) + 1))) ∧
    (∀ dc, parse_datetime fiso pin.content_updated_at = none →
      parse_datetime fiso pin.created_at = some dc →
      dc.tzAware = now.tzAware →
      calculate_weight fiso pin now was_seen =
        .ok (if was_seen then
               1 / ((pin.impressions24h : ℚ) + 1) *
                 new_card_boost ((now.seconds - dc.seconds) / 3600) *
                 SEEN_PENALTY
             else
               1 / ((pin.impressions24h : ℚ) + 1) *
                 new_card_boost ((now.seconds - dc.seconds) / 3600))) := by
  refine ⟨?_, ?_, ?_⟩
  · intro hc hu
    simp [calculate_weight, hc, hu]
  · intro du hc hu hdu
    unfold calculate_weight
    simp only [hc, hu, pySub_ok now du hdu.symm]
  · intro dc hu hc hdc
    unfold calculate_weight
    simp only [hc, hu, pySub_ok now dc hdc.symm]

theorem calculate_weight_failsoft_witness :
    calculate_weight (fun _ => none) ⟨"W", 4, some "not-a-date", none, none⟩
        ⟨0, true⟩ false = .ok (1 / ((4 : ℚ) + 1)) ∧
    calculate_weight (fun _ => some ⟨0, true⟩) ⟨"V", 0, some "x", some "", none⟩
        ⟨3600, true⟩ false =
      .ok (1 / ((0 : ℚ) + 1) * new_card_boost (((3600 : ℚ) - 0) / 3600)) := by
  constructor
  · have h := (calculate_weight_failsoft (fun _ => none)
        ⟨"W", 4, some "not-a-date", none, none⟩ ⟨0, true⟩ false).1
        (by simp [parse_datetime]) (by simp [parse_datetime])
    simpa using h
  · have h := (calculate_weight_failsoft (fun _ => some ⟨0, true⟩)
        ⟨"V", 0, some "x", some "", none⟩ ⟨3600, true⟩ false).2.2 ⟨0, true⟩
        (by simp +decide [parse_datetime])
        (by simp +decide [parse_datetime]) rfl
    simpa using h

/-- C8: a stored timestamp string that parses to a timezone-naive datetime
makes the weight computation raise `TypeError` when subtracted from the aware
current time (the `except ValueError` guard does not catch it) — whether it
is `created_at` that parses naive, or `content_updated_at` that parses naive
while `created_at` is absent/unparsable/aware — and `get_rotated_pins` then
fails with that exception for a board containing such a pin instead of
failing soft. -/
theorem calculate_weight_naive_ts (fiso : String → Option PyDatetime)
    (pin : Pin) (now : PyDatetime) (hn : now.tzAware = true) :
    (∀ (was_seen : Bool) (dt : PyDatetime),
      parse_datetime fiso pin.created_at = some dt → dt.tzAware = false →
      calculate_weight fiso pin now was_seen = .error "TypeError") ∧
    (∀ (was_seen : Bool) (du : PyDatetime),
      parse_datetime fiso pin.content_updated_at = some du →
      du.tzAware = false → safeTimestamp fiso now pin.created_at = true →
      calculate_weight fiso pin now was_seen = .error "TypeError") ∧
    (∀ (rand : RandSrc) (seen : String → Bool) (limit : ℤ),
      eligible pin = true →
      ((∃ dt, parse_datetime fiso pin.created_at = some dt ∧
          dt.tzAware = false) ∨
        ((∃ du, parse_datetime fiso pin.content_updated_at = some du ∧
            du.tzAware = false) ∧
          safeTimestamp fiso now pin.created_at = true)) →
      get_rotated_pins fiso rand [pin] none seen now limit =
        some (.error "TypeError")) := by
  have hcreated : ∀ (was_seen : Bool) (dt : PyDatetime),
      parse_datetime fiso pin.created_at = some dt → dt.tzAware = false →
      calculate_weight fiso pin now was_seen = .error "TypeError" := by
    intro was_seen dt hc hdt
    unfold calculate_weight
    simp [hc, pySub, hn, hdt]
  have hupdated : ∀ (was_seen : Bool) (du : PyDatetime),
      parse_datetime fiso pin.content_updated_at = some du →
      du.tzAware = false → safeTimestamp fiso now pin.created_at = true →
      calculate_weight fiso pin now was_seen = .error "TypeError" := by
    intro was_seen du hu hdu hsafe
    unfold calculate_weight
    unfold safeTimestamp at hsafe
    cases hc : parse_datetime fiso pin.created_at with
    | none => simp [hc, hu, pySub, hn, hdu]
    | some dc =>
      rw [hc] at hsafe
      simp only [beq_iff_eq] at hsafe
      have hdctz : dc.tzAware = true := hsafe.trans hn
      simp [hc, hu, pySub, hn, hdu, hdctz]
  refine ⟨hcreated, hupdated, ?_⟩
  intro rand seen limit helig hnaive
  have hw : calculate_weight fiso pin now (seen pin.id) = .error "TypeError" := by
    rcases hnaive with ⟨dt, hc, hdt⟩ | ⟨⟨du, hu, hdu⟩, hsafe⟩
    · exact hcreated (seen pin.id) dt hc hdt
    · exact hupdated (seen pin.id) du hu hdu hsafe
  unfold get_rotated_pins gatherAux
  simp [helig, hw]

theorem calculate_weight_naive_ts_witness :
    calculate_weight (fun _ => some ⟨0, false⟩)
        ⟨"N", 0, some "2024-01-01T00:00:00", none, none⟩ ⟨3600, true⟩ false =
      .error "TypeError" ∧
    calculate_weight (fun _ => some ⟨0, false⟩) ⟨"M", 0, none, some "x", none⟩
        ⟨3600, true⟩ false = .error "TypeError" ∧
    get_rotated_pins (fun _ => some ⟨0, false⟩) ⟨fun _ _ => 0, fun l => l, 0⟩
        [⟨"M", 0, none, some "x", none⟩] none (fun _ => false) ⟨3600, true⟩
        50 = some (.error "TypeError") := by
  have h := calculate_weight_naive_ts (fun _ => some ⟨0, false⟩)
      ⟨"N", 0, some "2024-01-01T00:00:00", none, none⟩ ⟨3600, true⟩ rfl
  have h2 := calculate_weight_naive_ts (fun _ => some ⟨0, false⟩)
      ⟨"M", 0, none, some "x", none⟩ ⟨3600, true⟩ rfl
  refine ⟨h.1 false ⟨0, false⟩ (by simp +decide [parse_datetime]) rfl,
    h2.2.1 false ⟨0, false⟩ (by simp +decide [parse_datetime]) rfl rfl,
    h2.2.2 ⟨fun _ _ => 0, fun l => l, 0⟩ (fun _ => false) 50 rfl
      (Or.inr ⟨⟨⟨0, false⟩, by simp +decide [parse_datetime], rfl⟩, rfl⟩)⟩

theorem resetLoop_ok_of_all (resetPin : String → Except String Unit) :
    ∀ l : List String, (∀ i ∈ l, resetPin i = .ok ()) →
      resetLoop resetPin l = .ok () := by
  intro l
  induction l with
  | nil => intro _; rfl
  | cons a rest ih =>
    intro h
    unfold resetLoop
    rw [h a (by simp)]
    exact ih fun i hi => h i (by simp [hi])

theorem resetLoop_error (resetPin : String → Except String Unit) :
    ∀ (pre : List String) (i : String) (post : List String) (e : String),
      (∀ j ∈ pre, resetPin j = .ok ()) → resetPin i = .error e →
      resetLoop resetPin (pre ++ i :: post) = .error e := by
  intro pre
  induction pre with
  | nil =>
    intro i post e _ hi
    rw [List.nil_append]
    simp only [resetLoop, hi]
  | cons a rest ih =>
    intro i post e hpre hi
    rw [List.cons_append]
    simp only [resetLoop, hpre a (by simp)]
    exact ih i post e (fun j hj => hpre j (by simp [hj])) hi

/-- C5 counterexample: with three overdue pins where resetting the second one
fails, `reset_daily_impressions` aborts with that error — it does not
complete the batch, and in particular does not return the count 2 of pins
successfully reset. -/
theorem reset_daily_impressions_cex :
    reset_daily_impressions ["p1", "p2", "p3"]
        (fun i => if i = "p2" then .error "boom" else .ok ()) =
      .error "boom" ∧
    (Except.error "boom" : Except String ℕ) ≠ .ok 2 := by
  constructor
  · simp [reset_daily_impressions, resetLoop]
  · simp

/-- C5 amended: `reset_daily_impressions` performs no per-pin failure
isolation: the first failing per-pin reset aborts the batch and propagates
that error; when every per-pin reset succeeds, the operation returns the
count of pins it enumerated (which then all were reset). -/
theorem reset_daily_impressions_amended (overdue : List String)
    (resetPin : String → Except String Unit) :
    ((∀ i ∈ overdue, resetPin i = .ok ()) →
      reset_daily_impressions overdue resetPin = .ok overdue.length) ∧
    (∀ (pre : List String) (i : String) (post : List String) (e : String),
      overdue = pre ++ i :: post → (∀ j ∈ pre, resetPin j = .ok ()) →
      resetPin i = .error e →
      reset_daily_impressions overdue resetPin = .error e) := by
  constructor
  · intro h
    unfold reset_daily_impressions
    cases overdue with
    | nil => rfl
    | cons a rest =>
      rw [if_neg (by simp)]
      rw [resetLoop_ok_of_all resetPin _ h]
  · intro pre i post e hsplit hpre hi
    unfold reset_daily_impressions
    subst hsplit
    rw [if_neg (by simp)]
    rw [resetLoop_error resetPin pre i post e hpre hi]

theorem reset_daily_impressions_amended_witness :
    reset_daily_impressions ["q1", "q2"] (fun _ => .ok ()) = .ok 2 ∧
    reset_daily_impressions ["q1", "q2"]
        (fun i => if i = "q2" then .error "E" else .ok ()) = .error "E" := by
  constructor
  · have h := (reset_daily_impressions_amended ["q1", "q2"]
        (fun _ => .ok ())).1 (by intro i _; rfl)
    simpa using h
  · exact (reset_daily_impressions_amended ["q1", "q2"]
        (fun i => if i = "q2" then .error "E" else .ok ())).2 ["q1"] "q2" [] "E"
      rfl (by intro j hj; simp at hj; simp [hj]) (by simp)

theorem totalWeight_cons {α : Type} (p : α × ℚ) (t : List (α × ℚ)) :
    totalWeight (p :: t) = p.2 + totalWeight t := by
  simp [totalWeight]

theorem selectScan_sound {α : Type} (pick : ℚ) :
    ∀ (items : List (α × ℚ)) (cum : ℚ) (a : α) (rest : List (α × ℚ)),
      selectScan pick cum items = some (a, rest) →
      ∃ w, items.Perm ((a, w) :: rest) := by
  intro items
  induction items with
  | nil => intro cum a rest h; simp [selectScan] at h
  | cons p t ih =>
    intro cum a rest h
    obtain ⟨b, w⟩ := p
    simp only [selectScan] at h
    by_cases hc : pick ≤ cum + w
    · rw [if_pos hc] at h
      simp only [Option.some.injEq, Prod.mk.injEq] at h
      obtain ⟨rfl, rfl⟩ := h
      exact ⟨w, List.Perm.refl _⟩
    · rw [if_neg hc] at h
      cases hrec : selectScan pick (cum + w) t with
      | none => rw [hrec] at h; exact absurd h (by simp)
      | some br =>
        obtain ⟨b2, rest2⟩ := br
        rw [hrec] at h
        simp only [Option.some.injEq, Prod.mk.injEq] at h
        obtain ⟨rfl, rfl⟩ := h
        obtain ⟨w2, hperm⟩ := ih (cum + w) b2 rest2 hrec
        exact ⟨w2, (hperm.cons (b, w)).trans (List.Perm.swap (b2, w2) (b, w) rest2)⟩

theorem selectScan_success {α : Type} (pick : ℚ) :
    ∀ (items : List (α × ℚ)) (cum : ℚ), items ≠ [] →
      pick ≤ cum + totalWeight items →
      ∃ r, selectScan pick cum items = some r := by
  intro items
  induction items with
  | nil => intro cum h _; exact absurd rfl h
  | cons p t ih =>
    intro cum _ hle
    obtain ⟨b, w⟩ := p
    rw [totalWeight_cons] at hle
    by_cases hc : pick ≤ cum + w
    · exact ⟨(b, t), by simp [selectScan, hc]⟩
    · have ht : t ≠ [] := by
        rintro rfl
        simp [totalWeight] at hle
        exact hc (by linarith)
      have hle2 : pick ≤ cum + w + totalWeight t := by linarith
      obtain ⟨⟨b2, rest2⟩, hr⟩ := ih (cum + w) ht hle2
      exact ⟨(b2, (b, w) :: rest2), by simp [selectScan, hc, hr]⟩

theorem weightedShuffleAux_spec {α : Type} (uniform : ℕ → ℚ → ℚ)
    (shuf : List α → List α) (hu : UniformValid uniform)
    (hs : ∀ l : List α, (shuf l).Perm l) :
    ∀ (fuel k : ℕ) (items : List (α × ℚ)) (result : List α),
      items.length ≤ fuel →
      ∃ out, weightedShuffleAux uniform shuf fuel k items result = some out ∧
        out.Perm (result ++ items.map Prod.fst) := by
  intro fuel
  induction fuel with
  | zero =>
    intro k items result hlen
    rw [Nat.le_zero, List.length_eq_zero] at hlen
    subst hlen
    exact ⟨result, rfl, by simp⟩
  | succ n ih =>
    intro k items result hlen
    cases items with
    | nil => exact ⟨result, rfl, by simp⟩
    | cons p t =>
      simp only [weightedShuffleAux]
      by_cases htot : totalWeight (p :: t) ≤ 0
      · rw [if_pos htot]
        exact ⟨_, rfl, List.Perm.append_left result (hs _)⟩
      · rw [if_neg htot]
        push_neg at htot
        obtain ⟨hge, hle⟩ := hu k _ htot
        obtain ⟨⟨a, rest⟩, hsel⟩ :=
          selectScan_success (uniform k (totalWeight (p :: t))) (p :: t) 0
            (by simp) (by rw [zero_add]; exact hle)
        rw [hsel]
        obtain ⟨w, hperm⟩ := selectScan_sound _ (p :: t) 0 a rest hsel
        have hrl : rest.length ≤ n := by
          have hl := hperm.length_eq
          simp only [List.length_cons] at hl hlen
          omega
        obtain ⟨out, hout, houtp⟩ := ih (k + 1) rest (result ++ [a]) hrl
        refine ⟨out, hout, ?_⟩
        have h2 : ((p :: t).map Prod.fst).Perm (a :: rest.map Prod.fst) := by
          have hm := hperm.map Prod.fst
          simpa using hm
        have e1 : (result ++ [a]) ++ rest.map Prod.fst =
            result ++ (a :: rest.map Prod.fst) := by simp
        exact (e1 ▸ houtp).trans (List.Perm.append_left result h2.symm)

/-- C1: the weighted shuffle returns (under the contract of the random
source) a permutation of exactly the input items — none dropped, none
duplicated — and in the degenerate case of a non-positive total weight on a
non-empty input it returns all remaining items exactly once via the
uniform-random fallback (`random.shuffle`). -/
theorem weighted_shuffle_perm {α : Type} (uniform : ℕ → ℚ → ℚ)
    (shuf : List α → List α) (items : List (α × ℚ))
    (hu : UniformValid uniform) (hs : ∀ l : List α, (shuf l).Perm l) :
    ∃ out, weighted_shuffle uniform shuf items = some out ∧
      out.Perm (items.map Prod.fst) ∧
      (totalWeight items ≤ 0 → items ≠ [] →
        out = shuf (items.map Prod.fst)) := by
  unfold weighted_shuffle
  cases items with
  | nil => exact ⟨[], by simp, by simp, by simp⟩
  | cons p t =>
    rw [if_neg (by simp)]
    obtain ⟨out, hout, hperm⟩ := weightedShuffleAux_spec uniform shuf hu hs
      (p :: t).length 0 (p :: t) [] le_rfl
    refine ⟨out, hout, by simpa using hperm, ?_⟩
    intro htot _
    simp only [List.length_cons, weightedShuffleAux, if_pos htot,
      Option.some.injEq, List.nil_append] at hout
    exact hout.symm

theorem weighted_shuffle_perm_witness :
    ∃ out, weighted_shuffle (fun _ _ => 0) (fun l : List ℕ => l)
        [(10, (1 : ℚ)), (20, 0)] = some out ∧
      out.Perm ([(10, (1 : ℚ)), (20, 0)].map Prod.fst) ∧
      (totalWeight [(10, (1 : ℚ)), (20, 0)] ≤ 0 →
        [(10, (1 : ℚ)), (20, 0)] ≠ [] →
        out = (fun l : List ℕ => l) ([(10, (1 : ℚ)), (20, 0)].map Prod.fst)) :=
  weighted_shuffle_perm (fun _ _ => 0) (fun l => l) [(10, 1), (20, 0)]
    (fun _ t ht => ⟨le_refl 0, le_of_lt ht⟩) (fun l => List.Perm.refl l)

/-- C9: the weighted-shuffle loop terminates on every finite input with
non-negative weights: each iteration either takes the degenerate fallback and
stops, or the cumulative scan selects an item (the final cumulative weight
equals the total, which is at least the drawn pick), strictly shrinking the
working set, so the loop runs out of items rather than out of fuel. -/
theorem weighted_shuffle_terminates {α : Type} (uniform : ℕ → ℚ → ℚ)
    (shuf : List α → List α) (items : List (α × ℚ))
    (hw : ∀ p ∈ items, 0 ≤ p.2)
    (hu : UniformValid uniform) (hs : ∀ l : List α, (shuf l).Perm l) :
    (weighted_shuffle uniform shuf items).isSome = true := by
  unfold weighted_shuffle
  split
  · rfl
  · obtain ⟨out, hout, _⟩ := weightedShuffleAux_spec uniform shuf hu hs
      items.length 0 items [] le_rfl
    rw [hout]
    rfl

theorem weighted_shuffle_terminates_witness :
    (weighted_shuffle (fun _ _ => 0) (fun l : List ℕ => l)
        [(1, (2 : ℚ)), (2, 3)]).isSome = true :=
  weighted_shuffle_terminates (fun _ _ => 0) (fun l => l) [(1, 2), (2, 3)]
    (by rintro p hp; fin_cases hp <;> norm_num)
    (fun _ t ht => ⟨le_refl 0, le_of_lt ht⟩) (fun l => List.Perm.refl l)

theorem gatherAux_acc_sub (fiso : String → Option PyDatetime)
    (now : PyDatetime) (fid : Option String) (seen : String → Bool) :
    ∀ (pins : List Pin) (acc : List (Pin × ℚ)) (feat : Option Pin)
      (ws : List (Pin × ℚ)) (feat2 : Option Pin),
      gatherAux fiso now fid seen pins acc feat = .ok (ws, feat2) →
      ∀ x ∈ acc, x ∈ ws := by
  intro pins
  induction pins with
  | nil =>
    intro acc feat ws feat2 h x hx
    simp only [gatherAux, Except.ok.injEq, Prod.mk.injEq] at h
    exact h.1 ▸ hx
  | cons p rest ih =>
    intro acc feat ws feat2 h x hx
    simp only [gatherAux] at h
    by_cases he : eligible p = true
    · rw [if_pos he] at h
      by_cases hf : (fid == some p.id) = true
      · rw [if_pos hf] at h
        exact ih _ _ _ _ h x hx
      · rw [if_neg hf] at h
        cases hcw : calculate_weight fiso p now (seen p.id) with
        | error e => rw [hcw] at h; simp at h
        | ok w =>
          rw [hcw] at h
          exact ih _ _ _ _ h x (by simp [hx])
    · rw [if_neg he] at h
      exact ih _ _ _ _ h x hx

theorem gatherAux_ws_src (fiso : String → Option PyDatetime)
    (now : PyDatetime) (fid : Option String) (seen : String → Bool) :
    ∀ (pins : List Pin) (acc : List (Pin × ℚ)) (feat : Option Pin)
      (ws : List (Pin × ℚ)) (feat2 : Option Pin),
      gatherAux fiso now fid seen pins acc feat = .ok (ws, feat2) →
      ∀ x ∈ ws, x ∈ acc ∨
        (x.1 ∈ pins ∧ eligible x.1 = true ∧ fid ≠ some x.1.id) := by
  intro pins
  induction pins with
  | nil =>
    intro acc feat ws feat2 h x hx
    simp only [gatherAux, Except.ok.injEq, Prod.mk.injEq] at h
    exact Or.inl (h.1 ▸ hx)
  | cons p rest ih =>
    intro acc feat ws feat2 h x hx
    simp only [gatherAux] at h
    by_cases he : eligible p = true
    · rw [if_pos he] at h
      by_cases hf : (fid == some p.id) = true
      · rw [if_pos hf] at h
        rcases ih _ _ _ _ h x hx with hl | ⟨h1, h2, h3⟩
        · exact Or.inl hl
        · exact Or.inr ⟨by simp [h1], h2, h3⟩
      · rw [if_neg hf] at h
        cases hcw : calculate_weight fiso p now (seen p.id) with
        | error e => rw [hcw] at h; simp at h
        | ok w =>
          rw [hcw] at h
          rcases ih _ _ _ _ h x hx with hl | ⟨h1, h2, h3⟩
          · rcases List.mem_append.1 hl with ha | hp
            · exact Or.inl ha
            · simp only [List.mem_singleton] at hp
              subst hp
              refine Or.inr ⟨by simp, he, ?_⟩
              intro heq
              rw [heq] at hf
              simp at hf
          · exact Or.inr ⟨by simp [h1], h2, h3⟩
    · rw [if_neg he] at h
      rcases ih _ _ _ _ h x hx with hl | ⟨h1, h2, h3⟩
      · exact Or.inl hl
      · exact Or.inr ⟨by simp [h1], h2, h3⟩

theorem gatherAux_mem (fiso : String → Option PyDatetime)
    (now : PyDatetime) (fid : Option String) (seen : String → Bool) :
    ∀ (pins : List Pin) (acc : List (Pin × ℚ)) (feat : Option Pin)
      (ws : List (Pin × ℚ)) (feat2 : Option Pin),
      gatherAux fiso now fid seen pins acc feat = .ok (ws, feat2) →
      ∀ pin ∈ pins, eligible pin = true → fid ≠ some pin.id →
        ∃ w, (pin, w) ∈ ws := by
  intro pins
  induction pins with
  | nil => intro acc feat ws feat2 _ pin hmem; exact absurd hmem (by simp)
  | cons p rest ih =>
    intro acc feat ws feat2 h pin hmem helig hnf
    simp only [gatherAux] at h
    rcases List.mem_cons.1 hmem with rfl | hmem2
    · rw [if_pos helig] at h
      rw [if_neg (by simp [hnf])] at h
      cases hcw : calculate_weight fiso pin now (seen pin.id) with
      | error e => rw [hcw] at h; simp at h
      | ok w =>
        rw [hcw] at h
        exact ⟨w, gatherAux_acc_sub fiso now fid seen _ _ _ _ _ h (pin, w)
          (by simp)⟩
    · by_cases he : eligible p = true
      · rw [if_pos he] at h
        by_cases hf : (fid == some p.id) = true
        · rw [if_pos hf] at h
          exact ih _ _ _ _ h pin hmem2 helig hnf
        · rw [if_neg hf] at h
          cases hcw : calculate_weight fiso p now (seen p.id) with
          | error e => rw [hcw] at h; simp at h
          | ok w =>
            rw [hcw] at h
            exact ih _ _ _ _ h pin hmem2 helig hnf
      · rw [if_neg he] at h
        exact ih _ _ _ _ h pin hmem2 helig hnf

theorem gatherAux_feat_src (fiso : String → Option PyDatetime)
    (now : PyDatetime) (fid : Option String) (seen : String → Bool) :
    ∀ (pins : List Pin) (acc : List (Pin × ℚ)) (feat : Option Pin)
      (ws : List (Pin × ℚ)) (feat2 : Option Pin),
      gatherAux fiso now fid seen pins acc feat = .ok (ws, feat2) →
      feat2 = feat ∨
        ∃ p, p ∈ pins ∧ feat2 = some p ∧ eligible p = true ∧
          fid = some p.id := by
  intro pins
  induction pins with
  | nil =>
    intro acc feat ws feat2 h
    simp only [gatherAux, Except.ok.injEq, Prod.mk.injEq] at h
    exact Or.inl h.2.symm
  | cons p rest ih =>
    intro acc feat ws feat2 h
    simp only [gatherAux] at h
    by_cases he : eligible p = true
    · rw [if_pos he] at h
      by_cases hf : (fid == some p.id) = true
      · rw [if_pos hf] at h
        rcases ih _ _ _ _ h with hl | ⟨q, hq1, hq2, hq3, hq4⟩
        · exact Or.inr ⟨p, by simp, hl, he, by simpa [beq_iff_eq] using hf⟩
        · exact Or.inr ⟨q, by simp [hq1], hq2, hq3, hq4⟩
      · rw [if_neg hf] at h
        cases hcw : calculate_weight fiso p now (seen p.id) with
        | error e => rw [hcw] at h; simp at h
        | ok w =>
          rw [hcw] at h
          rcases ih _ _ _ _ h with hl | ⟨q, hq1, hq2, hq3, hq4⟩
          · exact Or.inl hl
          · exact Or.inr ⟨q, by simp [hq1], hq2, hq3, hq4⟩
    · rw [if_neg he] at h
      rcases ih _ _ _ _ h with hl | ⟨q, hq1, hq2, hq3, hq4⟩
      · exact Or.inl hl
      · exact Or.inr ⟨q, by simp [hq1], hq2, hq3, hq4⟩

theorem gatherAux_ok_of_safe (fiso : String → Option PyDatetime)
    (now : PyDatetime) (fid : Option String) (seen : String → Bool) :
    ∀ (pins : List Pin) (acc : List (Pin × ℚ)) (feat : Option Pin),
      (∀ p ∈ pins, safePin fiso now p = true) →
      ∃ ws feat2,
        gatherAux fiso now fid seen pins acc feat = .ok (ws, feat2) := by
  intro pins
  induction pins with
  | nil => intro acc feat _; exact ⟨acc, feat, rfl⟩
  | cons p rest ih =>
    intro acc feat hsafe
    simp only [gatherAux]
    by_cases he : eligible p = true
    · rw [if_pos he]
      by_cases hf : (fid == some p.id) = true
      · rw [if_pos hf]
        exact ih _ _ fun q hq => hsafe q (by simp [hq])
      · rw [if_neg hf]
        obtain ⟨w, hw⟩ := calculate_weight_ok_of_safe fiso p now (seen p.id)
          (hsafe p (by simp))
        rw [hw]
        exact ih _ _ fun q hq => hsafe q (by simp [hq])
    · rw [if_neg he]
      exact ih _ _ fun q hq => hsafe q (by simp [hq])

theorem gatherAux_feat_found (fiso : String → Option PyDatetime)
    (now : PyDatetime) (fid : Option String) (seen : String → Bool) :
    ∀ (pins : List Pin) (acc : List (Pin × ℚ)) (feat : Option Pin)
      (ws : List (Pin × ℚ)) (feat2 : Option Pin),
      gatherAux fiso now fid seen pins acc feat = .ok (ws, feat2) →
      ((∃ p ∈ pins, eligible p = true ∧ fid = some p.id) ∨
        (∃ q, feat = some q ∧ eligible q = true ∧ fid = some q.id)) →
      ∃ q, feat2 = some q ∧ eligible q = true ∧ fid = some q.id := by
  intro pins
  induction pins with
  | nil =>
    intro acc feat ws feat2 h hyp
    simp only [gatherAux, Except.ok.injEq, Prod.mk.injEq] at h
    rcases hyp with ⟨p, hp, _⟩ | ⟨q, hq1, hq2, hq3⟩
    · exact absurd hp (by simp)
    · exact ⟨q, h.2 ▸ hq1, hq2, hq3⟩
  | cons p rest ih =>
    intro acc feat ws feat2 h hyp
    simp only [gatherAux] at h
    by_cases he : eligible p = true
    · rw [if_pos he] at h
      by_cases hf : (fid == some p.id) = true
      · rw [if_pos hf] at h
        exact ih _ _ _ _ h (Or.inr ⟨p, rfl, he, by simpa [beq_iff_eq] using hf⟩)
      · rw [if_neg hf] at h
        cases hcw : calculate_weight fiso p now (seen p.id) with
        | error e => rw [hcw] at h; simp at h
        | ok w =>
          rw [hcw] at h
          refine ih _ _ _ _ h ?_
          rcases hyp with ⟨q, hq1, hq2, hq3⟩ | hr
          · rcases List.mem_cons.1 hq1 with rfl | hq4
            · rw [hq3] at hf; simp at hf
            · exact Or.inl ⟨q, hq4, hq2, hq3⟩
          · exact Or.inr hr
    · rw [if_neg he] at h
      refine ih _ _ _ _ h ?_
      rcases hyp with ⟨q, hq1, hq2, hq3⟩ | hr
      · rcases List.mem_cons.1 hq1 with rfl | hq4
        · exact absurd hq2 (by simp [he])
        · exact Or.inl ⟨q, hq4, hq2, hq3⟩
      · exact Or.inr hr

theorem gatherAux_len_all (fiso : String → Option PyDatetime)
    (now : PyDatetime) (seen : String → Bool) :
    ∀ (pins : List Pin) (acc : List (Pin × ℚ)) (feat : Option Pin)
      (ws : List (Pin × ℚ)) (feat2 : Option Pin),
      gatherAux fiso now none seen pins acc feat = .ok (ws, feat2) →
      (∀ p ∈ pins, eligible p = true) →
      ws.length = acc.length + pins.length ∧ feat2 = feat := by
  intro pins
  induction pins with
  | nil =>
    intro acc feat ws feat2 h _
    simp only [gatherAux, Except.ok.injEq, Prod.mk.injEq] at h
    simp [← h.1, h.2]
  | cons p rest ih =>
    intro acc feat ws feat2 h hall
    simp only [gatherAux] at h
    rw [if_pos (hall p (by simp))] at h
    rw [if_neg (by simp)] at h
    cases hcw : calculate_weight fiso p now (seen p.id) with
    | error e => rw [hcw] at h; simp at h
    | ok w =>
      rw [hcw] at h
      obtain ⟨h1, h2⟩ := ih _ _ _ _ h fun q hq => hall q (by simp [hq])
      refine ⟨?_, h2⟩
      rw [h1]
      simp
      omega

/-- C6: the eligibility filter excludes a pin only when it has a linked
subscription whose status is neither "active" nor "past_due"; a pin with no
linked subscription is never excluded by this check, and (when it is not the
featured pin) it enters the weighted list handed to the shuffle. -/
theorem eligibility_filter_spec :
    (∀ pin : Pin, pin.subscriptions = none → eligible pin = true) ∧
    (∀ pin : Pin, eligible pin = false ↔
      ∃ sub, pin.subscriptions = some sub ∧
        sub.status ≠ some "active" ∧ sub.status ≠ some "past_due") ∧
    (∀ (fiso : String → Option PyDatetime) (now : PyDatetime)
      (fid : Option String) (seen : String → Bool) (pins : List Pin)
      (ws : List (Pin × ℚ)) (feat2 : Option Pin) (pin : Pin),
      gatherAux fiso now fid seen pins [] none = .ok (ws, feat2) →
      pin ∈ pins → pin.subscriptions = none → fid ≠ some pin.id →
      ∃ w, (pin, w) ∈ ws) := by
  refine ⟨?_, ?_, ?_⟩
  · intro pin h
    simp [eligible, h]
  · intro pin
    cases hs : pin.subscriptions with
    | none => simp [eligible, hs]
    | some sub =>
      cases hst : sub.status with
      | none =>
        constructor
        · intro _
          exact ⟨sub, rfl, by simp [hst], by simp [hst]⟩
        · intro _
          simp [eligible, hs, hst]
      | some st =>
        constructor
        · intro hel
          simp only [eligible, hs, hst, Bool.or_eq_false_iff,
            beq_eq_false_iff_ne] at hel
          exact ⟨sub, rfl, by simp [hst, hel.1], by simp [hst, hel.2]⟩
        · rintro ⟨sub2, hsub2, h1, h2⟩
          simp only [Option.some.injEq] at hsub2
          subst hsub2
          rw [hst] at h1 h2
          simp only [ne_eq, Option.some.injEq] at h1 h2
          simp [eligible, hs, hst, h1, h2]
  · intro fiso now fid seen pins ws feat2 pin hg hmem hsub hnf
    exact gatherAux_mem fiso now fid seen pins [] none ws feat2 hg pin hmem
      (by simp [eligible, hsub]) hnf

theorem eligibility_filter_spec_witness :
    eligible ⟨"X", 0, none, none, none⟩ = true ∧
    eligible ⟨"Y", 0, none, none, some ⟨some "canceled"⟩⟩ = false ∧
    ∃ w, ((⟨"X", 0, none, none, none⟩ : Pin), w) ∈
      ([((⟨"X", 0, none, none, none⟩ : Pin), (1 : ℚ))]) := by
  refine ⟨eligibility_filter_spec.1 _ rfl, ?_, ?_⟩
  · exact (eligibility_filter_spec.2.1 _).2
      ⟨⟨some "canceled"⟩, rfl, by simp, by simp⟩
  · refine eligibility_filter_spec.2.2 (fun _ => none) ⟨0, true⟩ none
      (fun _ => false) [⟨"X", 0, none, none, none⟩]
      [((⟨"X", 0, none, none, none⟩ : Pin), (1 : ℚ))] none _ ?_ (by simp) rfl
      (by simp)
    simp only [gatherAux, eligible]
    norm_num [calculate_weight, parse_datetime]

theorem pySlice_subset {α : Type} (l : List α) (n : ℤ) : pySlice l n ⊆ l := by
  unfold pySlice
  split <;> exact List.take_subset _ _

theorem pySlice_nonneg {α : Type} (l : List α) (n : ℤ) (h : 0 ≤ n) :
    pySlice l n = l.take n.toNat := by
  unfold pySlice
  rw [if_pos h]

theorem pySlice_length_le {α : Type} (l : List α) (n : ℤ) (h : 0 ≤ n) :
    ((pySlice l n).length : ℤ) ≤ n := by
  rw [pySlice_nonneg l n h]
  simp only [List.length_take]
  omega

theorem get_rotated_pins_run (fiso : String → Option PyDatetime)
    (rand : RandSrc) (pins : List Pin) (fid : Option String)
    (seen : String → Bool) (now : PyDatetime) (limit : ℤ)
    (hv : rand.Valid) (hsafe : ∀ p ∈ pins, safePin fiso now p = true) :
    ∃ ws feat2 shuffled,
      gatherAux fiso now fid seen pins [] none = .ok (ws, feat2) ∧
      weighted_shuffle rand.uniform rand.shuf ws = some shuffled ∧
      shuffled.Perm (ws.map Prod.fst) ∧
      get_rotated_pins fiso rand pins fid seen now limit =
        some (.ok (pySlice
          (match feat2 with
           | none => shuffled
           | some fp => shuffled.insertIdx (min rand.choice shuffled.length) fp)
          limit)) := by
  obtain ⟨ws, feat2, hg⟩ :=
    gatherAux_ok_of_safe fiso now fid seen pins [] none hsafe
  obtain ⟨shuffled, hsh, hperm, -⟩ :=
    weighted_shuffle_perm rand.uniform rand.shuf ws hv.1 hv.2.1
  refine ⟨ws, feat2, shuffled, hg, hsh, hperm, ?_⟩
  unfold get_rotated_pins
  cases pins with
  | nil =>
    simp only [gatherAux, Except.ok.injEq, Prod.mk.injEq] at hg
    obtain ⟨h1, h2⟩ := hg
    subst h1
    subst h2
    unfold weighted_shuffle at hsh
    simp only [List.isEmpty_nil, if_pos] at hsh
    simp only [Option.some.injEq] at hsh
    subst hsh
    simp [pySlice]
  | cons p t =>
    rw [if_neg (by simp)]
    simp only [hg, hsh]

/-- C10: the subscription-eligibility filter runs before the featured-pin
check, so when every active pin carrying the booked pin id fails the filter,
that id appears nowhere in the returned list: the pin is neither injected
into a featured slot nor ranked among the candidates, even though a paid
booking for it exists today. -/
theorem featured_ineligible_excluded (fiso : String → Option PyDatetime)
    (rand : RandSrc) (pins : List Pin) (f : String) (seen : String → Bool)
    (now : PyDatetime) (limit : ℤ) (out : List Pin)
    (hv : rand.Valid)
    (hall : ∀ p ∈ pins, p.id = f → eligible p = false)
    (hres : get_rotated_pins fiso rand pins (some f) seen now limit =
      some (.ok out)) :
    ∀ p ∈ out, p.id ≠ f := by
  intro p hp
  unfold get_rotated_pins at hres
  by_cases hemp : pins.isEmpty = true
  · rw [if_pos hemp] at hres
    simp only [Option.some.injEq, Except.ok.injEq] at hres
    subst hres
    exact absurd hp (by simp)
  · rw [if_neg hemp] at hres
    cases hg : gatherAux fiso now (some f) seen pins [] none with
    | error e => rw [hg] at hres; simp at hres
    | ok wf =>
      obtain ⟨ws, feat2⟩ := wf
      simp only [hg] at hres
      cases hsh : weighted_shuffle rand.uniform rand.shuf ws with
      | none => rw [hsh] at hres; simp at hres
      | some shuffled =>
        simp only [hsh] at hres
        have hfeat : feat2 = none := by
          rcases gatherAux_feat_src fiso now (some f) seen pins [] none ws
            feat2 hg with hl | ⟨q, hq1, _, hq3, hq4⟩
          · exact hl
          · simp only [Option.some.injEq] at hq4
            exact absurd (hall q hq1 hq4.symm) (by simp [hq3])
        subst hfeat
        simp only [Option.some.injEq, Except.ok.injEq] at hres
        subst hres
        obtain ⟨out2, hsh2, hperm, -⟩ :=
          weighted_shuffle_perm rand.uniform rand.shuf ws hv.1 hv.2.1
        rw [hsh] at hsh2
        simp only [Option.some.injEq] at hsh2
        subst hsh2
        have hp2 : p ∈ ws.map Prod.fst :=
          hperm.mem_iff.1 (pySlice_subset shuffled limit hp)
        obtain ⟨x, hx, hx2⟩ := List.mem_map.1 hp2
        rcases gatherAux_ws_src fiso now (some f) seen pins [] none ws none
          hg x hx with hacc | ⟨-, -, hne⟩
        · exact absurd hacc (by simp)
        · intro heq
          apply hne
          rw [hx2, heq]

theorem featured_ineligible_excluded_witness :
    (⟨"B", 0, none, none, none⟩ : Pin).id ≠ "F" := by
  have h := featured_ineligible_excluded (fun _ => none)
    ⟨fun _ _ => 0, fun l => l, 0⟩
    [⟨"F", 0, none, none, some ⟨some "canceled"⟩⟩, ⟨"B", 0, none, none, none⟩]
    "F" (fun _ => false) ⟨0, true⟩ 50 [⟨"B", 0, none, none, none⟩]
    ⟨fun _ t ht => ⟨le_refl 0, le_of_lt ht⟩, fun l => List.Perm.refl l,
      by simp [FEATURED_POSITIONS]⟩
    (by
      intro p hp hid
      fin_cases hp
      · rfl
      · simp at hid)
    (by
      norm_num +decide [get_rotated_pins, gatherAux, eligible,
        calculate_weight, parse_datetime, weighted_shuffle,
        weightedShuffleAux, selectScan, totalWeight, pySlice])
  exact h (⟨"B", 0, none, none, none⟩ : Pin) (by simp)

/-- C2 counterexample: a board with active pins A (featured today, no linked
subscription) and B, an insertion draw of 3 (a legitimate
`random.choice([0,1,2,3])` outcome) and caller limit 1: the featured pin A is
inserted at the clamped index 1 and then truncated away by `[:limit]`, so the
returned list does not contain the featured pin at all, even though a paid
booking for today exists and A is among the board's active pins. -/
theorem featured_placement_cex :
    get_rotated_pins (fun _ => none) ⟨fun _ _ => 0, fun l => l, 3⟩
        [⟨"A", 0, none, none, none⟩, ⟨"B", 0, none, none, none⟩] (some "A")
        (fun _ => false) ⟨0, true⟩ 1 =
      some (.ok [⟨"B", 0, none, none, none⟩]) ∧
    (⟨"A", 0, none, none, none⟩ : Pin) ∉
      [(⟨"B", 0, none, none, none⟩ : Pin)] := by
  constructor
  · norm_num +decide [get_rotated_pins, gatherAux, eligible, calculate_weight,
      parse_datetime, weighted_shuffle, weightedShuffleAux, selectScan,
      totalWeight, pySlice]
  · simp +decide

/-- C2 amended: provided some active pin carrying the booked id passes the
subscription-eligibility filter and the caller limit is at least 4 (so the
truncation step cannot cut the insertion point), the returned list contains
the featured pin exactly once, at an index in {0,1,2,3}: the insertion index
is clamped to the candidate-list length (appending at the end when the pool
is shorter than the drawn slot) rather than erroring, and at most one
featured pin is injected per call. -/
theorem featured_placement_amended (fiso : String → Option PyDatetime)
    (rand : RandSrc) (pins : List Pin) (f : String) (seen : String → Bool)
    (now : PyDatetime) (limit : ℤ)
    (hv : rand.Valid) (hsafe : ∀ p ∈ pins, safePin fiso now p = true)
    (hex : ∃ p ∈ pins, p.id = f ∧ eligible p = true)
    (hlim : 4 ≤ limit) :
    ∃ out, get_rotated_pins fiso rand pins (some f) seen now limit =
        some (.ok out) ∧
      out.countP (fun r => r.id == f) = 1 ∧
      ∃ i, ∃ hi : i < out.length, (out.get ⟨i, hi⟩).id = f ∧ i ≤ 3 := by
  obtain ⟨ws, feat2, shuffled, hg, hsh, hperm, hret⟩ :=
    get_rotated_pins_run fiso rand pins (some f) seen now limit hv hsafe
  obtain ⟨q, hq2, hqe, hqid⟩ :=
    gatherAux_feat_found fiso now (some f) seen pins [] none ws feat2 hg
      (Or.inl (by
        obtain ⟨p, hp1, hp2, hp3⟩ := hex
        exact ⟨p, hp1, hp3, by rw [hp2]⟩))
  have hqid2 : q.id = f := by
    simpa using hqid.symm
  subst hq2
  have hws0 : (ws.map Prod.fst).countP (fun r => r.id == f) = 0 := by
    rw [List.countP_eq_zero]
    intro a ha
    obtain ⟨x, hx, rfl⟩ := List.mem_map.1 ha
    rcases gatherAux_ws_src fiso now (some f) seen pins [] none ws (some q)
      hg x hx with hacc | ⟨-, -, hne⟩
    · exact absurd hacc (by simp)
    · simp only [beq_iff_eq]
      intro heq
      exact hne (by rw [heq])
  have hsh0 : shuffled.countP (fun r => r.id == f) = 0 := by
    rw [hperm.countP_eq]
    exact hws0
  have hchoice : rand.choice ≤ 3 := by
    have hmem := hv.2.2
    simp only [FEATURED_POSITIONS, List.mem_cons, List.mem_singleton,
      List.not_mem_nil, or_false] at hmem
    rcases hmem with h | h | h | h <;> omega
  have hpos3 : min rand.choice shuffled.length ≤ 3 :=
    le_trans (min_le_left _ _) hchoice
  have hposlen : min rand.choice shuffled.length ≤ shuffled.length :=
    min_le_right _ _
  have hfperm : (shuffled.insertIdx (min rand.choice shuffled.length) q).Perm
      (q :: shuffled) := List.perm_insertIdx q shuffled hposlen
  have hfcount : (shuffled.insertIdx (min rand.choice shuffled.length)
      q).countP (fun r => r.id == f) = 1 := by
    rw [hfperm.countP_eq, List.countP_cons, hsh0]
    simp [hqid2]
  have hlim0 : (0 : ℤ) ≤ limit := by omega
  have htn : 4 ≤ limit.toNat := by omega
  have hfinlen : min rand.choice shuffled.length <
      (shuffled.insertIdx (min rand.choice shuffled.length) q).length := by
    rw [List.length_insertIdx _ _ hposlen]
    omega
  have hpl : min rand.choice shuffled.length < limit.toNat := by omega
  have hget0 : (shuffled.insertIdx (min rand.choice shuffled.length) q).get
      ⟨min rand.choice shuffled.length, hfinlen⟩ = q := by
    have h := List.getElem_insertIdx_self shuffled q
      (min rand.choice shuffled.length) hposlen
    simpa [List.get_eq_getElem] using h
  have hmq : (match some q with
      | none => shuffled
      | some fp => shuffled.insertIdx (min rand.choice shuffled.length) fp) =
      shuffled.insertIdx (min rand.choice shuffled.length) q := rfl
  rw [hmq] at hret
  have hout_eq : pySlice (shuffled.insertIdx
      (min rand.choice shuffled.length) q) limit =
      (shuffled.insertIdx (min rand.choice shuffled.length) q).take
        limit.toNat :=
    pySlice_nonneg _ _ hlim0
  have htake_len : min rand.choice shuffled.length <
      ((shuffled.insertIdx (min rand.choice shuffled.length) q).take
        limit.toNat).length := by
    rw [List.length_take]
    exact lt_min hpl hfinlen
  have hgett : ((shuffled.insertIdx (min rand.choice shuffled.length) q).take
      limit.toNat).get ⟨min rand.choice shuffled.length, htake_len⟩ = q := by
    simp only [List.get_eq_getElem, List.getElem_take]
    simpa [List.get_eq_getElem] using hget0
  refine ⟨_, hret, ?_, ?_⟩
  · rw [hout_eq]
    have hle1 : ((shuffled.insertIdx (min rand.choice shuffled.length) q).take
        limit.toNat).countP (fun r => r.id == f) ≤ 1 :=
      hfcount ▸ (List.take_sublist _ _).countP_le _
    have hmemq : q ∈ (shuffled.insertIdx
        (min rand.choice shuffled.length) q).take limit.toNat := by
      conv_rhs => rw [← hgett]
      exact List.get_mem _ _ _
    have hge1 : 0 < ((shuffled.insertIdx (min rand.choice shuffled.length)
        q).take limit.toNat).countP (fun r => r.id == f) :=
      List.countP_pos_iff.2 ⟨q, hmemq, by simp [hqid2]⟩
    omega
  · rw [hout_eq]
    exact ⟨min rand.choice shuffled.length, htake_len,
      by rw [hgett]; exact hqid2, hpos3⟩

theorem featured_placement_amended_witness :
    ∃ out, get_rotated_pins (fun _ => none) ⟨fun _ _ => 0, fun l => l, 0⟩
        [⟨"A", 0, none, none, none⟩, ⟨"B", 0, none, none, none⟩] (some "A")
        (fun _ => false) ⟨0, true⟩ 4 = some (.ok out) ∧
      out.countP (fun r => r.id == "A") = 1 ∧
      ∃ i, ∃ hi : i < out.length, (out.get ⟨i, hi⟩).id = "A" ∧ i ≤ 3 := by
  apply featured_placement_amended
  · exact ⟨fun _ t ht => ⟨le_refl 0, le_of_lt ht⟩, fun l => List.Perm.refl l,
      by simp [FEATURED_POSITIONS]⟩
  · intro p hp
    fin_cases hp <;> rfl
  · exact ⟨⟨"A", 0, none, none, none⟩, by simp, rfl, rfl⟩
  · norm_num

/-- C3 counterexample: the engine does not clamp an out-of-range limit: with
three eligible pins and caller limit −1, Python slicing returns the first two
pins, a list of length 2, which is not of length at most the limit and not
what any clamp into the range 1–100 would produce; range enforcement happens
only in the HTTP handler (which rejects, rather than clamps, bad values). -/
theorem limit_enforcement_cex :
    get_rotated_pins (fun _ => none) ⟨fun _ _ => 0, fun l => l, 0⟩
        [⟨"A", 0, none, none, none⟩, ⟨"B", 0, none, none, none⟩,
          ⟨"C", 0, none, none, none⟩] none (fun _ => false) ⟨0, true⟩ (-1) =
      some (.ok [⟨"A", 0, none, none, none⟩, ⟨"B", 0, none, none, none⟩]) ∧
    ¬((([(⟨"A", 0, none, none, none⟩ : Pin),
        ⟨"B", 0, none, none, none⟩]).length : ℤ) ≤ -1) := by
  constructor
  · norm_num +decide [get_rotated_pins, gatherAux, eligible, calculate_weight,
      parse_datetime, weighted_shuffle, weightedShuffleAux, selectScan,
      totalWeight, pySlice]
  · simp

/-- C3 amended: for every non-negative caller-supplied limit the returned
list has length at most the limit, and exactly the limit when the board has
at least `limit` eligible pins and no featured booking (e.g. limit 2 with 10
eligible pins gives exactly 2); the engine itself does not clamp limits
outside 1–100 — it applies Python slice semantics directly, and range
enforcement lives in the HTTP handler, which rejects out-of-range values. -/
theorem limit_enforcement_amended (fiso : String → Option PyDatetime)
    (rand : RandSrc) (pins : List Pin) (fid : Option String)
    (seen : String → Bool) (now : PyDatetime) (limit : ℤ)
    (hv : rand.Valid) (hsafe : ∀ p ∈ pins, safePin fiso now p = true)
    (hlim : 0 ≤ limit) :
    ∃ out, get_rotated_pins fiso rand pins fid seen now limit =
        some (.ok out) ∧
      (out.length : ℤ) ≤ limit ∧
      ((∀ p ∈ pins, eligible p = true) → fid = none →
        limit ≤ (pins.length : ℤ) → (out.length : ℤ) = limit) := by
  obtain ⟨ws, feat2, shuffled, hg, hsh, hperm, hret⟩ :=
    get_rotated_pins_run fiso rand pins fid seen now limit hv hsafe
  refine ⟨_, hret, pySlice_length_le _ limit hlim, ?_⟩
  intro hall hfidn hle
  subst hfidn
  obtain ⟨hlen, hfeat⟩ :=
    gatherAux_len_all fiso now seen pins [] none ws feat2 hg hall
  subst hfeat
  have hmatch : (match (none : Option Pin) with
      | none => shuffled
      | some fp =>
        shuffled.insertIdx (min rand.choice shuffled.length) fp) =
      shuffled := rfl
  rw [hmatch, pySlice_nonneg _ _ hlim, List.length_take]
  have hslen : shuffled.length = pins.length := by
    rw [hperm.length_eq, List.length_map, hlen]
    simp
  rw [hslen]
  omega

theorem limit_enforcement_amended_witness :
    ∃ out, get_rotated_pins (fun _ => none) ⟨fun _ _ => 0, fun l => l, 0⟩
        [⟨"1", 0, none, none, none⟩, ⟨"2", 0, none, none, none⟩,
          ⟨"3", 0, none, none, none⟩, ⟨"4", 0, none, none, none⟩,
          ⟨"5", 0, none, none, none⟩, ⟨"6", 0, none, none, none⟩,
          ⟨"7", 0, none, none, none⟩, ⟨"8", 0, none, none, none⟩,
          ⟨"9", 0, none, none, none⟩, ⟨"10", 0, none, none, none⟩] none
        (fun _ => false) ⟨0, true⟩ 2 = some (.ok out) ∧
      (out.length : ℤ) ≤ 2 ∧
      ((∀ p ∈ [(⟨"1", 0, none, none, none⟩ : Pin),
          ⟨"2", 0, none, none, none⟩, ⟨"3", 0, none, none, none⟩,
          ⟨"4", 0, none, none, none⟩, ⟨"5", 0, none, none, none⟩,
          ⟨"6", 0, none, none, none⟩, ⟨"7", 0, none, none, none⟩,
          ⟨"8", 0, none, none, none⟩, ⟨"9", 0, none, none, none⟩,
          ⟨"10", 0, none, none, none⟩], eligible p = true) →
        (none : Option String) = none →
        (2 : ℤ) ≤ (([(⟨"1", 0, none, none, none⟩ : Pin),
          ⟨"2", 0, none, none, none⟩, ⟨"3", 0, none, none, none⟩,
          ⟨"4", 0, none, none, none⟩, ⟨"5", 0, none, none, none⟩,
          ⟨"6", 0, none, none, none⟩, ⟨"7", 0, none, none, none⟩,
          ⟨"8", 0, none, none, none⟩, ⟨"9", 0, none, none, none⟩,
          ⟨"10", 0, none, none, none⟩]).length : ℤ) →
        (out.length : ℤ) = 2) := by
  apply limit_enforcement_amended
  · exact ⟨fun _ t ht => ⟨le_refl 0, le_of_lt ht⟩, fun l => List.Perm.refl l,
      by simp [FEATURED_POSITIONS]⟩
  · intro p hp
    fin_cases hp <;> rfl
  · norm_num

end RotationService
